import Mathlib

/-!
# Verification of the dual-path word-statistics pipeline

This file gives a shallow embedding of the word-statistics script
(`pyApi_vs_pySql.py`): a corpus (list of text lines) is tokenized, and three
statistics (total token count, top-20 token frequency, top-20 unordered
token-pair frequency) are each computed along two paths — a fluent
transformation chain ("API", Path A) and a declarative query ("SQL", Path B) —
whose results are then compared.

Machine-level notes on the embedding:
* a Spark dataframe column of strings is a `List String`; a corpus is the list
  of lines of the input text file;
* `lower`, `regexp_replace(_, "[^a-z\\s]", "")`, `trim` and `split(_, "\\s+")`
  are modelled character-exactly: Java's `\s` class is `[ \t\n\x0B\f\r]`,
  Spark's `trim` removes only the space character from both ends
  (SPARK-17299), and Java's `split` with limit `-1` keeps boundary empty
  fields and returns `[""]` on the empty string;
* grouped aggregation (`groupBy(..).count()` / `GROUP BY .. COUNT(*)`)
  produces its groups in an engine-chosen order; both paths are executed by
  the same engine over the same data, and the embedding fixes the common
  group order to first-occurrence order, the API side by incremental
  counting (`bump`/`foldl`) and the SQL side by distinct-keys-plus-`COUNT(*)`;
* `ORDER BY count DESC LIMIT 20` / `orderBy(desc).limit(20)` is a stable
  descending sort by count followed by `take 20`;
* Python's `sorted`, applied by the script to both top-20 pair lists before
  comparing them, is a sort by the usual tuple order.
-/

/-! ## Characters and lexicographic string order -/

/-- Java regex `\s` class: the whitespace characters recognised by the
`[^a-z\s]` deletion regex and by the `\s+` splitting regex. -/
def isWsChar (c : Char) : Bool :=
  c = ' ' || c = '\t' || c = '\n' || c = '\x0B' || c = '\x0C' || c = '\r'

/-- Characters kept by `regexp_replace(lower(line), "[^a-z\s]", "")`:
lowercase letters and whitespace. -/
def keepChar (c : Char) : Bool :=
  ('a' ≤ c && c ≤ 'z') || isWsChar c

/-- Lexicographic (code-point) comparison of character lists; this is the
string comparison underlying Python's `sorted` on strings. -/
def charsLe : List Char → List Char → Bool
  | [], _ => true
  | _ :: _, [] => false
  | a :: as, b :: bs =>
    if a < b then true else if b < a then false else charsLe as bs

/-- Lexicographic order on strings, as a proposition. -/
def strLeP (a b : String) : Prop := charsLe a.data b.data = true

instance : DecidableRel strLeP := fun a b =>
  inferInstanceAs (Decidable (charsLe a.data b.data = true))

/-! ## Tokenizer

`cleanedDF` lowercases each line and deletes every character outside
`[a-z\s]`; `tokenized_df` trims the result and splits it on `\s+`;
`words_df` explodes the per-line word arrays and filters out empty words. -/

/-- Cleaning step `regexp_replace(lower(col("line")), "[^a-z\s]", "")` on one line. -/
def cleanChars (l : List Char) : List Char :=
  (l.map Char.toLower).filter keepChar

/-- Spark's `trim`: removes leading and trailing space characters (`' '`
only — SPARK-17299 — not the full `\s` class). -/
def trimSpaces (l : List Char) : List Char :=
  (((l.dropWhile (fun c => c = ' ')).reverse.dropWhile (fun c => c = ' ')).reverse)

/-- Java `String.split("\s+", -1)`: runs of whitespace separate fields; a
leading run yields a leading empty field, a trailing run a trailing empty
field, and the empty string yields `[""]`.  `acc` is the current field read
so far (reversed) and `prevWs` records whether the previous character was
part of a whitespace run. -/
def splitWsAux : List Char → List Char → Bool → List (List Char)
  | [], acc, _ => [acc.reverse]
  | c :: cs, acc, prevWs =>
    if isWsChar c then
      if prevWs then splitWsAux cs acc true
      else acc.reverse :: splitWsAux cs [] true
    else splitWsAux cs (c :: acc) false

def splitWs (l : List Char) : List (List Char) := splitWsAux l [] false

/-- The `words` column of `tokenized_df` for a single input line:
`split(trim(cleanLines), "\s+")`. -/
def lineWords (line : String) : List String :=
  (splitWs (trimSpaces (cleanChars line.data))).map List.asString

/-- View `tokenized_df` (registered as the SQL view `lineTable_temp`): one row per
input line, holding that line's word array. -/
def tokenized_df (corpus : List String) : List (List String) :=
  corpus.map lineWords

/-- View `words_df` (registered as the SQL view `wordTable_temp`): the word arrays
exploded into one row per word, with empty words filtered out. -/
def words_df (corpus : List String) : List String :=
  (tokenized_df corpus).flatten.filter (fun w => w ≠ "")

/-! ## Grouped aggregation

Both engines' grouped counts, with the shared engine-chosen group order fixed
to first-occurrence order (see the header). -/

/-- Add one occurrence of key `w` to a running table of group counts
(insert `(w, 1)` if `w` is new). -/
def bump (w : String) : List (String × Nat) → List (String × Nat)
  | [] => [(w, 1)]
  | p :: t => if p.1 = w then (p.1, p.2 + 1) :: t else p :: bump w t

/-- Path A aggregation `groupBy(key).count()`: fold the rows through `bump`,
counting incrementally. -/
def apiGroupCount (rows : List String) : List (String × Nat) :=
  rows.foldl (fun acc w => bump w acc) []

/-- Distinct keys of `rows` in first-occurrence order, skipping keys already
in `seen`. -/
def distinctKeys : List String → List String → List String
  | [], _ => []
  | w :: ws, seen =>
    if w ∈ seen then distinctKeys ws seen
    else w :: distinctKeys ws (w :: seen)

/-- Number of occurrences of `w` among `rows` (`COUNT(*)` within a group). -/
def countOcc (w : String) : List String → Nat
  | [] => 0
  | x :: xs => (if x = w then 1 else 0) + countOcc w xs

/-- Path B aggregation `SELECT key, COUNT(*) .. GROUP BY key`: one output row
per distinct key, holding that key's occurrence count. -/
def sqlGroupCount (rows : List String) : List (String × Nat) :=
  (distinctKeys rows []).map (fun w => (w, countOcc w rows))

/-- Ordering stage `ORDER BY count DESC`: stable descending sort of a grouped table by
count. -/
def sortCountDesc (l : List (String × Nat)) : List (String × Nat) :=
  l.insertionSort (fun p q => q.2 ≤ p.2)

/-! ## Statistic 1: total word count -/

/-- Path A: `words_df.count()`. -/
def pySparkWordCount (corpus : List String) : Nat :=
  (words_df corpus).length

/-- Path B: `SELECT COUNT(*) AS total_words FROM wordTable_temp` — the
aggregate scans the view's rows, adding one per row. -/
def sqlCountVal (corpus : List String) : Nat :=
  (words_df corpus).foldl (fun n _ => n + 1) 0

/-! ## Statistic 2: top-20 word frequency -/

/-- Path A: `words_df.groupBy("word").count().orderBy(desc).limit(20)`. -/
def pysparkFrequency (corpus : List String) : List (String × Nat) :=
  (sortCountDesc (apiGroupCount (words_df corpus))).take 20

/-- Path B: `SELECT word, COUNT(*) AS frequency FROM wordTable_temp GROUP BY
word ORDER BY frequency DESC LIMIT 20`. -/
def sqlFrequency (corpus : List String) : List (String × Nat) :=
  (sortCountDesc (sqlGroupCount (words_df corpus))).take 20

/-! ## Statistic 3: top-20 unordered word pairs -/

/-- Python `sorted(set(words))`: the distinct words, sorted ascending. -/
def sortedUnique (ws : List String) : List String :=
  (distinctKeys ws []).insertionSort strLeP

/-- Emission order of `itertools.combinations_with_replacement(l, 2)`:
`(l[i], l[j])` for all `i ≤ j`, ordered first by `i` then by `j`. -/
def cwr2 {α : Type} : List α → List (α × α)
  | [] => []
  | x :: xs => ((x :: xs).map (fun y => (x, y))) ++ cwr2 xs

/-- The f-string `f"{w1}|{w2}"` encoding of one pair. -/
def pairKey (p : String × String) : String := p.1 ++ "|" ++ p.2

/-- The word pairs of one line, before string encoding. -/
def linePairs (ws : List String) : List (String × String) :=
  cwr2 (sortedUnique ws)

/-- The shared pairing UDF: `sorted(set(words))` followed by
`combinations_with_replacement(_, 2)`, each pair rendered as `"w1|w2"`. -/
def generate_pairs (ws : List String) : List String :=
  (linePairs ws).map pairKey

/-- Path A pair rows `pySparkPair`: `tokenized_df.withColumn("pairs",
getPairs(col("words"))).select(explode(col("pairs")))` — compute each line's
pair array, then explode. -/
def pySparkPair (corpus : List String) : List String :=
  ((tokenized_df corpus).map generate_pairs).flatten

/-- Path B pair rows: the temp view `pair_table`, built by `SELECT
explode(generate_pairs_udf(words)) AS pair FROM lineTable_temp`. -/
def pair_table (corpus : List String) : List String :=
  (tokenized_df corpus).flatMap generate_pairs

/-- Path A: `pySparkPair.groupBy("pair").count().orderBy(desc).limit(20)`. -/
def pysparkPairFreq (corpus : List String) : List (String × Nat) :=
  (sortCountDesc (apiGroupCount (pySparkPair corpus))).take 20

/-- Path B: `SELECT pair, COUNT(*) AS count FROM pair_table GROUP BY pair
ORDER BY count DESC LIMIT 20`. -/
def sqlPairFreq (corpus : List String) : List (String × Nat) :=
  (sortCountDesc (sqlGroupCount (pair_table corpus))).take 20

/-- Python's tuple order on `(pair, count)` rows, used by the script's final
`sorted(...)` normalisation before comparing the two top-20 pair lists. -/
def tupLe (p q : String × Nat) : Prop :=
  (p.1 = q.1 ∧ p.2 ≤ q.2) ∨ (p.1 ≠ q.1 ∧ strLeP p.1 q.1)

instance : DecidableRel tupLe := fun p q => by
  unfold tupLe
  infer_instance

/-- Final normalisation `sorted([(row["pair"], row["count"]) for row in pysparkPairFreq.collect()])`. -/
def pysparkPairRes (corpus : List String) : List (String × Nat) :=
  (pysparkPairFreq corpus).insertionSort tupLe

/-- Final normalisation `sorted([(row["pair"], row["count"]) for row in sqlPairFreq.collect()])`. -/
def sqlPairRes (corpus : List String) : List (String × Nat) :=
  (sqlPairFreq corpus).insertionSort tupLe

/-- Strict lexicographic order on the emitted `(w1, w2)` pairs. -/
def pairLt (p q : String × String) : Prop :=
  (p.1 = q.1 ∧ p.2 ≠ q.2 ∧ strLeP p.2 q.2) ∨ (p.1 ≠ q.1 ∧ strLeP p.1 q.1)

/-! ## Equivalence checker and exporter

The script's tail is straight-line: after each statistic it compares the two
paths' materialized results, printing a match message or a mismatch
diagnostic that includes both result sets, and then unconditionally proceeds
to the next statistic and to the CSV export.  The checker is modelled
parametrically in the engine-returned results (the engine's tie-breaking is
not pinned down), so the no-halt behaviour is stated for mismatching inputs
as well. -/

/-- One console diagnostic of the equivalence checker: either a match
message, or a mismatch message carrying both result sets in full. -/
inductive Report where
  | okCount (label : String) (n : Nat)
  | mismatchCount (label : String) (apiRes sqlRes : Nat)
  | okTable (label : String)
  | mismatchTable (label : String) (apiRes sqlRes : List (String × Nat))
  deriving DecidableEq

/-- Check `if sqlCountVal == pySparkWordCount: print(match) else: print(mismatch)`. -/
def checkCount (apiRes sqlRes : Nat) : Report :=
  if sqlRes = apiRes then .okCount "word_count" sqlRes
  else .mismatchCount "word_count" apiRes sqlRes

/-- The frequency and pair comparisons: `if sqlRes == pysparkRes: ... else:
print both result sets`. -/
def checkTable (label : String) (apiRes sqlRes : List (String × Nat)) : Report :=
  if sqlRes = apiRes then .okTable label
  else .mismatchTable label apiRes sqlRes

/-- The seven CSV outputs written by the export stage. -/
def exportFileNames : List String :=
  ["sql_word_count.csv", "api_word_count.csv",
   "sql_word_frequency.csv", "api_word_frequency.csv",
   "sql_word_pairs.csv", "api_word_pairs.csv",
   "runtime_comparison.csv"]

/-- What the script's tail produces: the checker reports and the exported
files. -/
structure RunOutput where
  reports : List Report
  exportedFiles : List String
  deriving DecidableEq

/-- The script's tail, parametric in the engine-returned per-path results:
three equivalence checks in sequence, then the export stage.  No branch
interrupts the sequence. -/
def runChecksAndExport (apiCount sqlCount : Nat)
    (apiFreq sqlFreq apiPairs sqlPairs : List (String × Nat)) : RunOutput :=
  { reports :=
      [checkCount apiCount sqlCount,
       checkTable "word_frequency" apiFreq sqlFreq,
       checkTable "word_pairs" apiPairs sqlPairs],
    exportedFiles := exportFileNames }

/-! ## Spec-side tokenizer variant

The spec's normalization pipeline says step (3) is "trim leading/trailing
whitespace".  The following definitions are modelled from those words (full
`\s` trim) to compare against the source's `trim`, which removes only
spaces. -/

/-- Modelled from the spec: step (3) as written, trimming all leading and
trailing whitespace (the full `\s` class), not only spaces. -/
def specTrimWhitespace (l : List Char) : List Char :=
  (((l.dropWhile isWsChar).reverse.dropWhile isWsChar).reverse)

/-- Modelled from the spec: the per-line tokenization as the spec words it —
(1) lowercase, (2) delete `[^a-z\s]`, (3) trim whitespace, (4) split on
`\s+`. -/
def specLineWords (line : String) : List String :=
  (splitWs (specTrimWhitespace (cleanChars line.data))).map List.asString

/-! ## Lemmas: the lexicographic order -/

theorem charsLe_refl : ∀ l : List Char, charsLe l l = true
  | [] => rfl
  | a :: as => by simp [charsLe, lt_irrefl a, charsLe_refl as]

theorem charsLe_total : ∀ l₁ l₂ : List Char,
    charsLe l₁ l₂ = true ∨ charsLe l₂ l₁ = true
  | [], _ => Or.inl rfl
  | _ :: _, [] => Or.inr rfl
  | a :: as, b :: bs => by
    rcases lt_trichotomy a b with h | h | h
    · exact Or.inl (by simp [charsLe, h])
    · subst h
      simpa [charsLe, lt_irrefl a] using charsLe_total as bs
    · exact Or.inr (by simp [charsLe, h])

theorem charsLe_trans : ∀ l₁ l₂ l₃ : List Char,
    charsLe l₁ l₂ = true → charsLe l₂ l₃ = true → charsLe l₁ l₃ = true
  | [], _, _, _, _ => rfl
  | _ :: _, [], _, h, _ => by simp [charsLe] at h
  | _ :: _, _ :: _, [], _, h => by simp [charsLe] at h
  | a :: as, b :: bs, c :: cs, h₁, h₂ => by
    rcases lt_trichotomy a b with hab | hab | hab
    · rcases lt_trichotomy b c with hbc | hbc | hbc
      · simp [charsLe, lt_trans hab hbc]
      · subst hbc; simp [charsLe, hab]
      · simp [charsLe, hab, not_lt_of_lt hab] at h₁ ⊢
        simp [charsLe, hbc, not_lt_of_lt hbc] at h₂
    · subst hab
      rcases lt_trichotomy a c with hac | hac | hac
      · simp [charsLe, hac]
      · subst hac
        simp [charsLe, lt_irrefl a] at h₁ h₂ ⊢
        exact charsLe_trans as bs cs h₁ h₂
      · simp [charsLe, hac, not_lt_of_lt hac] at h₂
    · simp [charsLe, hab, not_lt_of_lt hab] at h₁

theorem charsLe_antisymm : ∀ l₁ l₂ : List Char,
    charsLe l₁ l₂ = true → charsLe l₂ l₁ = true → l₁ = l₂
  | [], [], _, _ => rfl
  | [], _ :: _, _, h => by simp [charsLe] at h
  | _ :: _, [], h, _ => by simp [charsLe] at h
  | a :: as, b :: bs, h₁, h₂ => by
    rcases lt_trichotomy a b with hab | hab | hab
    · simp [charsLe, hab, not_lt_of_lt hab] at h₂
    · subst hab
      simp [charsLe, lt_irrefl a] at h₁ h₂
      rw [charsLe_antisymm as bs h₁ h₂]
    · simp [charsLe, hab, not_lt_of_lt hab] at h₁

theorem strLeP_antisymm {a b : String} (h₁ : strLeP a b) (h₂ : strLeP b a) :
    a = b := by
  cases a
  cases b
  exact congrArg String.mk (charsLe_antisymm _ _ h₁ h₂)

theorem lineWords_example :
    lineWords "Hello, World! 123" = ["hello", "world"] := by decide

theorem lineWords_punct : lineWords "!!!" = [""] := by decide

theorem pairs_example :
    generate_pairs ["cat", "dog", "cat"] = ["cat|cat", "cat|dog", "dog|dog"] := by
  decide

theorem pairRows_example :
    pySparkPair ["cat dog cat", "dog bird"] =
      ["cat|cat", "cat|dog", "dog|dog", "bird|bird", "bird|dog", "dog|dog"] := by
  decide

/-! ## Lemmas: grouped aggregation

The incremental fold (`bump`) and the distinct-keys-plus-count query compute
the same grouped table, groups in first-occurrence order. -/

theorem keys_bump_of_mem {w : String} :
    ∀ l : List (String × Nat), w ∈ l.map Prod.fst →
      (bump w l).map Prod.fst = l.map Prod.fst := by
  intro l hw
  induction l with
  | nil => simp at hw
  | cons p t ih =>
    by_cases hp : p.1 = w
    · simp [bump, hp]
    · simp only [List.map_cons, List.mem_cons] at hw
      rcases hw with hw | hw
      · exact absurd hw.symm hp
      · simp [bump, hp, ih hw]

theorem bump_of_not_mem {w : String} :
    ∀ l : List (String × Nat), w ∉ l.map Prod.fst →
      bump w l = l ++ [(w, 1)] := by
  intro l hw
  induction l with
  | nil => rfl
  | cons p t ih =>
    simp only [List.map_cons, List.mem_cons, not_or] at hw
    have hpw : ¬p.1 = w := fun h => hw.1 h.symm
    simp [bump, hpw, ih hw.2]

theorem keys_bump_nodup {w : String} {l : List (String × Nat)}
    (h : (l.map Prod.fst).Nodup) : ((bump w l).map Prod.fst).Nodup := by
  by_cases hw : w ∈ l.map Prod.fst
  · rw [keys_bump_of_mem l hw]; exact h
  · rw [bump_of_not_mem l hw, List.map_append]
    refine (List.perm_append_singleton _ _).nodup_iff.mpr ?_
    exact List.nodup_cons.mpr ⟨hw, h⟩

theorem bump_map_shift (rs : List String) (r : String) :
    ∀ acc : List (String × Nat), (acc.map Prod.fst).Nodup →
      r ∈ acc.map Prod.fst →
      (bump r acc).map (fun p => (p.1, p.2 + countOcc p.1 rs))
        = acc.map (fun p => (p.1, p.2 + countOcc p.1 (r :: rs))) := by
  intro acc
  induction acc with
  | nil => intro _ h; simp at h
  | cons p t ih =>
    intro hnd hr
    simp only [List.map_cons, List.nodup_cons] at hnd
    by_cases hp : p.1 = r
    · have hb : bump r (p :: t) = (p.1, p.2 + 1) :: t := by
        rw [bump, if_pos hp]
      rw [hb]
      simp only [List.map_cons]
      congr 1
      · have hc : countOcc p.1 (r :: rs) = 1 + countOcc p.1 rs := by
          simp [countOcc, hp.symm]
        rw [hc, Nat.add_assoc]
      · apply List.map_congr_left
        intro q hq
        have hq1 : ¬r = q.1 := by
          intro h
          apply hnd.1
          rw [hp, h]
          exact List.mem_map_of_mem Prod.fst hq
        simp [countOcc, hq1]
    · have hrt : r ∈ t.map Prod.fst := by
        simp only [List.map_cons, List.mem_cons] at hr
        exact hr.resolve_left (fun h => hp h.symm)
      have hb : bump r (p :: t) = p :: bump r t := by
        rw [bump, if_neg hp]
      rw [hb]
      simp only [List.map_cons, ih hnd.2 hrt]
      congr 1
      have hp1 : ¬r = p.1 := fun h => hp h.symm
      simp [countOcc, hp1]

theorem distinctKeys_congr (l : List String) :
    ∀ s₁ s₂ : List String, (∀ x, x ∈ s₁ ↔ x ∈ s₂) →
      distinctKeys l s₁ = distinctKeys l s₂ := by
  induction l with
  | nil => intro _ _ _; rfl
  | cons w ws ih =>
    intro s₁ s₂ hs
    by_cases hw : w ∈ s₁
    · simp [distinctKeys, hw, (hs w).mp hw, ih _ _ hs]
    · have hw₂ : w ∉ s₂ := fun h => hw ((hs w).mpr h)
      have : ∀ x, x ∈ w :: s₁ ↔ x ∈ w :: s₂ := by
        intro x; simp [hs x]
      simp [distinctKeys, hw, hw₂, ih _ _ this]

theorem mem_distinctKeys_iff {x : String} :
    ∀ l seen : List String, x ∈ distinctKeys l seen ↔ x ∈ l ∧ x ∉ seen := by
  intro l
  induction l with
  | nil => intro seen; simp [distinctKeys]
  | cons w ws ih =>
    intro seen
    by_cases hw : w ∈ seen
    · rw [distinctKeys, if_pos hw, ih]
      constructor
      · exact fun ⟨h₁, h₂⟩ => ⟨List.mem_cons_of_mem w h₁, h₂⟩
      · rintro ⟨h₁, h₂⟩
        rcases List.mem_cons.mp h₁ with h | h
        · exact absurd (h ▸ hw) h₂
        · exact ⟨h, h₂⟩
    · rw [distinctKeys, if_neg hw]
      constructor
      · intro h
        rcases List.mem_cons.mp h with h | h
        · exact ⟨h ▸ List.mem_cons_self w ws, h ▸ hw⟩
        · have := (ih (w :: seen)).mp h
          exact ⟨List.mem_cons_of_mem w this.1,
            fun hx => this.2 (List.mem_cons_of_mem w hx)⟩
      · rintro ⟨h₁, h₂⟩
        rcases List.mem_cons.mp h₁ with h | h
        · exact h ▸ List.mem_cons_self x _
        · by_cases hxw : x = w
          · exact hxw ▸ List.mem_cons_self w _
          · exact List.mem_cons_of_mem w ((ih (w :: seen)).mpr
              ⟨h, by simp [hxw, h₂]⟩)

theorem foldl_bump_eq (rows : List String) :
    ∀ acc : List (String × Nat), (acc.map Prod.fst).Nodup →
      rows.foldl (fun a w => bump w a) acc
        = acc.map (fun p => (p.1, p.2 + countOcc p.1 rows))
          ++ (distinctKeys rows (acc.map Prod.fst)).map
              (fun w => (w, countOcc w rows)) := by
  induction rows with
  | nil => intro acc _; simp [distinctKeys, countOcc]
  | cons r rs ih =>
    intro acc hnd
    by_cases hr : r ∈ acc.map Prod.fst
    · have hkeys := keys_bump_of_mem (w := r) acc hr
      rw [List.foldl_cons, ih (bump r acc) (hkeys ▸ hnd), hkeys,
        bump_map_shift rs r acc hnd hr]
      rw [distinctKeys, if_pos hr]
      congr 1
      apply List.map_congr_left
      intro w hw
      have hwr : ¬r = w := fun h =>
        ((mem_distinctKeys_iff rs _).mp hw).2 (h ▸ hr)
      simp [countOcc, hwr]
    · have hb := bump_of_not_mem (w := r) acc hr
      have hnd' : ((bump r acc).map Prod.fst).Nodup := keys_bump_nodup hnd
      rw [List.foldl_cons, ih (bump r acc) hnd', hb, distinctKeys, if_neg hr]
      have hkeys' : (acc ++ [(r, 1)]).map Prod.fst = acc.map Prod.fst ++ [r] := by
        simp
      rw [hkeys',
        distinctKeys_congr rs (acc.map Prod.fst ++ [r]) (r :: acc.map Prod.fst)
          (by intro x; simp [or_comm])]
      simp only [List.map_append, List.map_cons, List.map_nil,
        List.append_assoc, List.singleton_append]
      congr 1
      · apply List.map_congr_left
        intro p hp
        have hp1 : ¬r = p.1 := fun h =>
          hr (h ▸ List.mem_map_of_mem Prod.fst hp)
        simp [countOcc, hp1]
      · congr 1
        · have : countOcc r (r :: rs) = 1 + countOcc r rs := by simp [countOcc]
          rw [this]
        · apply List.map_congr_left
          intro w hw
          have hwr : ¬r = w := by
            have h2 := ((mem_distinctKeys_iff rs _).mp hw).2
            simp only [List.mem_cons, not_or] at h2
            exact fun h => h2.1 h.symm
          simp [countOcc, hwr]

/-- The two engines' grouped counts agree, row for row. -/
theorem apiGroupCount_eq_sqlGroupCount (rows : List String) :
    apiGroupCount rows = sqlGroupCount rows := by
  have h := foldl_bump_eq rows [] (by simp)
  simpa [apiGroupCount, sqlGroupCount] using h

theorem foldl_incr {α : Type} (l : List α) :
    ∀ n : Nat, l.foldl (fun n _ => n + 1) n = n + l.length := by
  induction l with
  | nil => intro n; simp
  | cons x xs ih =>
    intro n
    simp only [List.foldl_cons, List.length_cons, ih (n + 1)]
    omega

/-- The API and SQL pair-row views hold the same rows: `flatMap` is
map-then-flatten. -/
theorem pair_rows_agree (corpus : List String) :
    pySparkPair corpus = pair_table corpus := by
  rw [pySparkPair, pair_table, List.flatMap]

/-! ## Claim theorems: path equivalence (C1, C5, C2) and the scenario (C9) -/

/-- Claim C1: for every input corpus, the total token count computed by
Path A (counting the rows of `words_df` via the fluent API) equals the total
token count computed by Path B (the declarative `COUNT(*)` query over the
same view), as exact integer equality. -/
theorem total_count_path_equivalence (corpus : List String) :
    pySparkWordCount corpus = sqlCountVal corpus := by
  rw [pySparkWordCount, sqlCountVal, foldl_incr, Nat.zero_add]

/-- Claim C5: for every input corpus, the top-20 word-frequency results of
Path A and Path B agree elementwise as ordered lists of `(token, count)`
pairs after sorting by count descending. -/
theorem word_frequency_path_equivalence (corpus : List String) :
    pysparkFrequency corpus = sqlFrequency corpus := by
  rw [pysparkFrequency, sqlFrequency, apiGroupCount_eq_sqlGroupCount]

/-- Claim C2: for every input corpus, the top-20 unordered token-pair
frequency results of Path A (fluent chain) and Path B (declarative query) are
equal as `(pair, count)` lists once both are deterministically sorted — both
paths apply the identical pairing function `generate_pairs` to the same
line-token view and differ only in the surrounding query mechanism. -/
theorem word_pair_path_equivalence (corpus : List String) :
    pysparkPairRes corpus = sqlPairRes corpus := by
  rw [pysparkPairRes, sqlPairRes, pysparkPairFreq, sqlPairFreq,
    pair_rows_agree, apiGroupCount_eq_sqlGroupCount]

/-! ## Lemmas: the pairing function -/

theorem distinctKeys_nodup : ∀ l seen : List String, (distinctKeys l seen).Nodup := by
  intro l
  induction l with
  | nil => intro seen; exact List.nodup_nil
  | cons w ws ih =>
    intro seen
    by_cases hw : w ∈ seen
    · rw [distinctKeys, if_pos hw]; exact ih seen
    · rw [distinctKeys, if_neg hw]
      refine List.nodup_cons.mpr ⟨?_, ih (w :: seen)⟩
      intro hmem
      exact ((mem_distinctKeys_iff ws _).mp hmem).2 (List.mem_cons_self w seen)

theorem mem_sortedUnique {x : String} {ws : List String} :
    x ∈ sortedUnique ws ↔ x ∈ ws := by
  rw [sortedUnique, List.mem_insertionSort, mem_distinctKeys_iff]
  simp

theorem sortedUnique_sorted (ws : List String) :
    (sortedUnique ws).Sorted strLeP := by
  haveI : IsTotal String strLeP := ⟨fun a b => charsLe_total a.data b.data⟩
  haveI : IsTrans String strLeP :=
    ⟨fun a b c h₁ h₂ => charsLe_trans a.data b.data c.data h₁ h₂⟩
  exact List.sorted_insertionSort strLeP (distinctKeys ws [])

theorem sortedUnique_nodup (ws : List String) : (sortedUnique ws).Nodup :=
  (List.perm_insertionSort strLeP (distinctKeys ws [])).nodup_iff.mpr
    (distinctKeys_nodup ws [])

theorem mem_of_mem_cwr2 {α : Type} {a b : α} :
    ∀ l : List α, (a, b) ∈ cwr2 l → a ∈ l ∧ b ∈ l := by
  intro l
  induction l with
  | nil => intro h; simp [cwr2] at h
  | cons x xs ih =>
    intro h
    rcases List.mem_append.mp h with h | h
    · rcases List.mem_map.mp h with ⟨y, hy, hxy⟩
      rw [Prod.mk.injEq] at hxy
      exact ⟨hxy.1 ▸ List.mem_cons_self x xs, hxy.2 ▸ hy⟩
    · have := ih h
      exact ⟨List.mem_cons_of_mem x this.1, List.mem_cons_of_mem x this.2⟩

theorem mem_cwr2_iff {a b : String} :
    ∀ l : List String, l.Sorted strLeP →
      ((a, b) ∈ cwr2 l ↔ a ∈ l ∧ b ∈ l ∧ strLeP a b) := by
  intro l
  induction l with
  | nil => intro _; simp [cwr2]
  | cons x xs ih =>
    intro hs
    have hx : ∀ c ∈ xs, strLeP x c := (List.sorted_cons.mp hs).1
    have hs' : xs.Sorted strLeP := (List.sorted_cons.mp hs).2
    constructor
    · intro h
      rcases List.mem_append.mp h with h | h
      · rcases List.mem_map.mp h with ⟨y, hy, hxy⟩
        rw [Prod.mk.injEq] at hxy
        refine ⟨hxy.1 ▸ List.mem_cons_self x xs, hxy.2 ▸ hy, ?_⟩
        rcases List.mem_cons.mp hy with hyx | hyx
        · rw [← hxy.1, ← hxy.2, hyx]
          exact charsLe_refl _
        · rw [← hxy.1, ← hxy.2]
          exact hx y hyx
      · have := (ih hs').mp h
        exact ⟨List.mem_cons_of_mem x this.1,
          List.mem_cons_of_mem x this.2.1, this.2.2⟩
    · rintro ⟨ha, hb, hab⟩
      rcases List.mem_cons.mp ha with ha | ha
      · subst ha
        exact List.mem_append_left _
          (List.mem_map.mpr ⟨b, hb, rfl⟩)
      · rcases List.mem_cons.mp hb with hb | hb
        · have hax : a = x := strLeP_antisymm (hb ▸ hab) (hx a ha)
          refine List.mem_append_left _ (List.mem_map.mpr ⟨b, ?_, ?_⟩)
          · rw [hb]; exact List.mem_cons_self x xs
          · rw [Prod.mk.injEq]; exact ⟨hax.symm, rfl⟩
        · exact List.mem_append_right _ ((ih hs').mpr ⟨ha, hb, hab⟩)

theorem cwr2_pairwise :
    ∀ l : List String, l.Sorted strLeP → l.Nodup →
      (cwr2 l).Pairwise pairLt := by
  intro l
  induction l with
  | nil => intro _ _; exact List.Pairwise.nil
  | cons x xs ih =>
    intro hs hn
    have hx : ∀ c ∈ xs, strLeP x c := (List.sorted_cons.mp hs).1
    have hs' : xs.Sorted strLeP := (List.sorted_cons.mp hs).2
    have hxn : x ∉ xs := (List.nodup_cons.mp hn).1
    have hn' : xs.Nodup := (List.nodup_cons.mp hn).2
    rw [cwr2, List.pairwise_append]
    refine ⟨?_, ih hs' hn', ?_⟩
    · rw [List.pairwise_map]
      have hpw : (x :: xs).Pairwise (fun c d => c ≠ d ∧ strLeP c d) := hn.and hs
      exact hpw.imp (fun h => Or.inl ⟨rfl, h.1, h.2⟩)
    · rintro p hp q hq
      rcases List.mem_map.mp hp with ⟨y, _, hxy⟩
      obtain ⟨q1, q2⟩ := q
      have hq1 : q1 ∈ xs := (mem_of_mem_cwr2 xs hq).1
      refine Or.inr ⟨?_, ?_⟩
      · rw [← hxy]
        exact fun h => hxn (by rw [show x = q1 from h]; exact hq1)
      · rw [← hxy]
        exact hx q1 hq1

theorem pipe_append_inj :
    ∀ a₁ b₁ a₂ b₂ : List Char, '|' ∉ a₁ → '|' ∉ a₂ →
      a₁ ++ '|' :: b₁ = a₂ ++ '|' :: b₂ → a₁ = a₂ ∧ b₁ = b₂ := by
  intro a₁
  induction a₁ with
  | nil =>
    intro b₁ a₂ b₂ _ h₂ h
    cases a₂ with
    | nil => simpa using h
    | cons c cs =>
      simp only [List.nil_append, List.cons_append, List.cons.injEq] at h
      exact absurd (h.1 ▸ List.mem_cons_self c cs) h₂
  | cons c cs ih =>
    intro b₁ a₂ b₂ h₁ h₂ h
    cases a₂ with
    | nil =>
      simp only [List.cons_append, List.nil_append, List.cons.injEq] at h
      exact absurd (h.1 ▸ List.mem_cons_self c cs) h₁
    | cons d ds =>
      simp only [List.cons_append, List.cons.injEq] at h
      have h₁' : '|' ∉ cs := fun hm => h₁ (List.mem_cons_of_mem c hm)
      have h₂' : '|' ∉ ds := fun hm => h₂ (List.mem_cons_of_mem d hm)
      have := ih b₁ ds b₂ h₁' h₂' h.2
      exact ⟨by rw [h.1, this.1], this.2⟩

theorem pairKey_data (p : String × String) :
    (pairKey p).data = p.1.data ++ '|' :: p.2.data := by
  rw [pairKey]
  simp

theorem pairKey_inj {p q : String × String}
    (hp1 : ('|' : Char) ∉ p.1.data) (hq1 : ('|' : Char) ∉ q.1.data)
    (h : pairKey p = pairKey q) : p = q := by
  have hd : (pairKey p).data = (pairKey q).data := by rw [h]
  rw [pairKey_data, pairKey_data] at hd
  have := pipe_append_inj _ _ _ _ hp1 hq1 hd
  have e1 : p.1 = q.1 := String.toList_inj.mp this.1
  have e2 : p.2 = q.2 := String.toList_inj.mp this.2
  exact Prod.ext e1 e2

theorem pairLt_ne {p q : String × String} (h : pairLt p q) : p ≠ q := by
  rcases h with ⟨_, h₂, _⟩ | ⟨h₁, _⟩
  · exact fun he => h₂ (congrArg Prod.snd he)
  · exact fun he => h₁ (congrArg Prod.fst he)

theorem linePairs_nodup (ws : List String) : (linePairs ws).Nodup :=
  (cwr2_pairwise (sortedUnique ws) (sortedUnique_sorted ws)
    (sortedUnique_nodup ws)).imp pairLt_ne

theorem sortedUnique_ext {ws₁ ws₂ : List String}
    (h : ∀ w, w ∈ ws₁ ↔ w ∈ ws₂) : sortedUnique ws₁ = sortedUnique ws₂ := by
  haveI : IsAntisymm String strLeP := ⟨fun _ _ h₁ h₂ => strLeP_antisymm h₁ h₂⟩
  refine List.eq_of_perm_of_sorted ?_ (sortedUnique_sorted ws₁) (sortedUnique_sorted ws₂)
  refine (List.perm_ext_iff_of_nodup (sortedUnique_nodup ws₁) (sortedUnique_nodup ws₂)).mpr ?_
  intro x
  rw [mem_sortedUnique, mem_sortedUnique]
  exact h x

/-- Claim C3: for every list of words with no `|` in any word (every word
array the program ever feeds to the UDF), the emitted pairs of
`generate_pairs` are exactly the combinations with replacement of the sorted
distinct words of the list — `(a, b)` appears iff `a` and `b` occur in the
list and `a ≤ b` lexicographically — each pair encoded as `"a|b"`; no
duplicate pair and no reversed form `"b|a"` (for `a < b`) is ever emitted,
and for a line with tokens `a, b, a` the emitted pairs are exactly
`a|a, a|b, b|b`. -/
theorem pairing_correctness (ws : List String)
    (hpipe : ∀ w ∈ ws, ('|' : Char) ∉ w.data) :
    (∀ a b : String, (a, b) ∈ linePairs ws ↔ a ∈ ws ∧ b ∈ ws ∧ strLeP a b) ∧
    (∀ p ∈ generate_pairs ws,
      ∃ a b : String, strLeP a b ∧ p = a ++ "|" ++ b) ∧
    (generate_pairs ws).Nodup ∧
    (∀ a b : String, ('|' : Char) ∉ a.data → ('|' : Char) ∉ b.data →
      strLeP a b → a ≠ b → (b ++ "|" ++ a) ∉ generate_pairs ws) ∧
    generate_pairs ["a", "b", "a"] = ["a|a", "a|b", "b|b"] := by
  have hmem : ∀ a b : String,
      (a, b) ∈ linePairs ws ↔ a ∈ ws ∧ b ∈ ws ∧ strLeP a b := by
    intro a b
    rw [linePairs, mem_cwr2_iff (sortedUnique ws) (sortedUnique_sorted ws)]
    rw [mem_sortedUnique, mem_sortedUnique]
  refine ⟨hmem, ?_, ?_, ?_, by decide⟩
  · intro p hp
    rcases List.mem_map.mp hp with ⟨q, hq, henc⟩
    obtain ⟨q1, q2⟩ := q
    have hq' := (hmem q1 q2).mp hq
    exact ⟨q1, q2, hq'.2.2, by rw [← henc]; rfl⟩
  · rw [generate_pairs]
    refine (linePairs_nodup ws).map_on ?_
    intro p hp q hq he
    rw [linePairs] at hp hq
    obtain ⟨p1, p2⟩ := p
    obtain ⟨q1, q2⟩ := q
    have hp1 := hpipe p1 (mem_sortedUnique.mp (mem_of_mem_cwr2 _ hp).1)
    have hq1 := hpipe q1 (mem_sortedUnique.mp (mem_of_mem_cwr2 _ hq).1)
    exact pairKey_inj hp1 hq1 he
  · intro a b _ hb hab hne hcontra
    rw [generate_pairs] at hcontra
    rcases List.mem_map.mp hcontra with ⟨q, hq, henc⟩
    obtain ⟨q1, q2⟩ := q
    have hq1 := hpipe q1 (mem_sortedUnique.mp
      (mem_of_mem_cwr2 _ (show (q1, q2) ∈ cwr2 (sortedUnique ws) by
        rwa [linePairs] at hq)).1)
    have hqe : (q1, q2) = ((b, a) : String × String) :=
      pairKey_inj hq1 hb (henc.trans rfl)
    have hq2 : ((b, a) : String × String) ∈ linePairs ws := by
      rw [← hqe]; exact hq
    have hba : strLeP b a := ((hmem b a).mp hq2).2.2
    exact hne (strLeP_antisymm hab hba)

/-- Witness for `pairing_correctness` at the word list `a, b, a`. -/
theorem pairing_correctness_witness :
    (generate_pairs ["a", "b", "a"]).Nodup ∧
    generate_pairs ["a", "b", "a"] = ["a|a", "a|b", "b|b"] :=
  ⟨(pairing_correctness ["a", "b", "a"] (by decide)).2.2.1,
   (pairing_correctness ["a", "b", "a"] (by decide)).2.2.2.2⟩

/-- Claim C10: the pairing function depends only on the set of its input
words — any two word lists with the same underlying set of elements produce
the identical pair list — and the emitted pair sequence is strictly
increasing in the lexicographic order on the underlying `(w1, w2)` pairs
(hence sorted and duplicate-free). -/
theorem pairing_extensionality (ws₁ ws₂ : List String)
    (h : ∀ w, w ∈ ws₁ ↔ w ∈ ws₂) :
    generate_pairs ws₁ = generate_pairs ws₂ ∧
    (linePairs ws₁).Pairwise pairLt ∧
    (linePairs ws₁).Nodup := by
  refine ⟨?_,
    cwr2_pairwise _ (sortedUnique_sorted ws₁) (sortedUnique_nodup ws₁),
    linePairs_nodup ws₁⟩
  rw [generate_pairs, generate_pairs, linePairs, linePairs, sortedUnique_ext h]

/-- Witness for `pairing_extensionality`: a permuted, duplicated word list
yields the identical pair list. -/
theorem pairing_extensionality_witness :
    generate_pairs ["b", "a", "b"] = generate_pairs ["a", "b"] ∧
    (linePairs ["b", "a", "b"]).Pairwise pairLt :=
  ⟨(pairing_extensionality ["b", "a", "b"] ["a", "b"]
      (by intro w; simp; tauto)).1,
   (pairing_extensionality ["b", "a", "b"] ["a", "b"]
      (by intro w; simp; tauto)).2.1⟩

/-! ## Lemmas: characters surviving the tokenizer -/

theorem splitWsAux_ne_nil : ∀ (l acc : List Char) (b : Bool),
    splitWsAux l acc b ≠ [] := by
  intro l
  induction l with
  | nil => intro acc b; simp [splitWsAux]
  | cons x xs ih =>
    intro acc b
    rw [splitWsAux]
    by_cases hx : isWsChar x
    · rw [if_pos hx]
      cases b with
      | true => simpa using ih acc true
      | false => simp
    · rw [if_neg hx]
      simpa using ih (x :: acc) false

theorem splitWsAux_chars :
    ∀ (l acc : List Char) (b : Bool), ∀ t ∈ splitWsAux l acc b,
      ∀ c ∈ t, c ∈ acc ∨ (c ∈ l ∧ isWsChar c = false) := by
  intro l
  induction l with
  | nil =>
    intro acc b t ht c hc
    rw [splitWsAux, List.mem_singleton] at ht
    subst ht
    exact Or.inl (List.mem_reverse.mp hc)
  | cons x xs ih =>
    intro acc b t ht c hc
    rw [splitWsAux] at ht
    by_cases hx : isWsChar x
    · rw [if_pos hx] at ht
      cases b with
      | true =>
        rcases ih acc true t ht c hc with h | h
        · exact Or.inl h
        · exact Or.inr ⟨List.mem_cons_of_mem x h.1, h.2⟩
      | false =>
        rcases List.mem_cons.mp ht with ht | ht
        · subst ht
          exact Or.inl (List.mem_reverse.mp hc)
        · rcases ih [] true t ht c hc with h | h
          · simp at h
          · exact Or.inr ⟨List.mem_cons_of_mem x h.1, h.2⟩
    · rw [if_neg hx] at ht
      rcases ih (x :: acc) false t ht c hc with h | h
      · rcases List.mem_cons.mp h with h | h
        · subst h
          exact Or.inr ⟨List.mem_cons_self c xs, by simpa using hx⟩
        · exact Or.inl h
      · exact Or.inr ⟨List.mem_cons_of_mem x h.1, h.2⟩

theorem mem_of_mem_trimSpaces {c : Char} {m : List Char}
    (h : c ∈ trimSpaces m) : c ∈ m := by
  rw [trimSpaces, List.mem_reverse] at h
  have h1 := (List.dropWhile_sublist _).subset h
  rw [List.mem_reverse] at h1
  exact (List.dropWhile_sublist _).subset h1

/-- Every character of every token produced by the tokenizer for one line is
a lowercase letter. -/
theorem lineWords_chars (line : String) :
    ∀ w ∈ lineWords line, ∀ c ∈ w.data, 'a' ≤ c ∧ c ≤ 'z' := by
  intro w hw c hc
  rw [lineWords] at hw
  rcases List.mem_map.mp hw with ⟨t, ht, hts⟩
  have hct : c ∈ t := by rw [← hts] at hc; exact hc
  rcases splitWsAux_chars _ [] false t ht c hct with h | h
  · simp at h
  · have hcm : c ∈ cleanChars line.data := mem_of_mem_trimSpaces h.1
    have hk : keepChar c = true := (List.mem_filter.mp hcm).2
    simp only [keepChar, Bool.or_eq_true, Bool.and_eq_true,
      decide_eq_true_eq] at hk
    rcases hk with hk | hk
    · exact hk
    · rw [h.2] at hk
      exact absurd hk (by simp)

theorem cleanChars_ws_of_no_alpha {line : List Char}
    (halpha : ∀ c ∈ line, ¬('a' ≤ c.toLower ∧ c.toLower ≤ 'z')) :
    ∀ c ∈ cleanChars line, isWsChar c = true := by
  intro c hc
  rcases List.mem_filter.mp hc with ⟨hmem, hk⟩
  rcases List.mem_map.mp hmem with ⟨c₀, hc₀, hce⟩
  simp only [keepChar, Bool.or_eq_true, Bool.and_eq_true,
    decide_eq_true_eq] at hk
  rcases hk with hk | hk
  · exact absurd (hce ▸ hk) (halpha c₀ hc₀)
  · exact hk

/-- Claim C9: on the two-line corpus `"cat dog cat"` / `"dog bird"`, the
pipeline yields flat-token total 5, top word frequencies
`(cat, 2), (dog, 2), (bird, 1)` (a valid order of the count-2 tie), and
aggregated pair counts with `dog|dog` at 2 and every other emitted pair
(`cat|cat`, `cat|dog`, `bird|bird`, `bird|dog`) at 1. -/
theorem scenario_cat_dog_bird :
    pySparkWordCount ["cat dog cat", "dog bird"] = 5 ∧
    pysparkFrequency ["cat dog cat", "dog bird"]
      = [("cat", 2), ("dog", 2), ("bird", 1)] ∧
    apiGroupCount (pySparkPair ["cat dog cat", "dog bird"])
      = [("cat|cat", 1), ("cat|dog", 1), ("dog|dog", 2),
         ("bird|bird", 1), ("bird|dog", 1)] := by
  decide

/-- Claim C4 (amended): tokenization applies, in this order, (1) lowercase,
(2) deletion of every character outside `[a-z\s]`, (3) trimming of leading
and trailing space characters only (the source engine's `trim` removes
spaces, not the full whitespace class), (4) splitting on runs of whitespace;
empty strings produced by splitting are discarded from the flat-token view,
and the line `"Hello, World! 123"` yields exactly the token list
`["hello", "world"]`. -/
theorem tokenization_steps (corpus : List String) :
    (∀ line : String,
      lineWords line
        = (splitWs (trimSpaces (cleanChars line.data))).map List.asString) ∧
    (∀ w ∈ words_df corpus, w ≠ "") ∧
    lineWords "Hello, World! 123" = ["hello", "world"] := by
  refine ⟨fun _ => rfl, ?_, by decide⟩
  intro w hw
  rw [words_df] at hw
  simpa using (List.mem_filter.mp hw).2

/-- Witness for `tokenization_steps` at a concrete corpus and token. -/
theorem tokenization_steps_witness :
    "hello" ∈ words_df ["Hello, World! 123"] ∧ "hello" ≠ "" :=
  ⟨by decide,
   (tokenization_steps ["Hello, World! 123"]).2.1 "hello" (by decide)⟩

/-- Counterexample to claim C4 as stated: step (3) of the code trims only
space characters, not all whitespace; on the line `"\thi"` the code's
tokenizer keeps the leading tab and produces the word sequence
`["", "hi"]`, while the claimed step list (trim all leading/trailing
whitespace before splitting) produces `["hi"]`. -/
theorem tokenization_steps_counterexample :
    lineWords "\thi" = ["", "hi"] ∧ specLineWords "\thi" = ["hi"] ∧
    lineWords "\thi" ≠ specLineWords "\thi" := by
  decide

/-- Claim C6 (amended): a line with no alphabetic characters contributes
zero rows to the flat-token view, but its row in the line-token view is not
an empty sequence: it is a nonempty sequence all of whose entries are the
empty string — exactly `[""]` when the line's whitespace (if any) consists
of spaces, as it does for an all-punctuation line. -/
theorem punctuation_line_tokens (line : String)
    (halpha : ∀ c ∈ line.data, ¬('a' ≤ c.toLower ∧ c.toLower ≤ 'z')) :
    (∀ w ∈ lineWords line, w = "") ∧
    lineWords line ≠ [] ∧
    words_df [line] = [] ∧
    ((∀ c ∈ line.data, isWsChar c.toLower = true → c.toLower = ' ') →
      lineWords line = [""]) := by
  have hwords : ∀ w ∈ lineWords line, w = "" := by
    intro w hw
    rw [lineWords] at hw
    rcases List.mem_map.mp hw with ⟨t, ht, hts⟩
    have htnil : t = [] := by
      rw [List.eq_nil_iff_forall_not_mem]
      intro c hct
      rcases splitWsAux_chars _ [] false t ht c hct with h | h
      · simp at h
      · have hcm := mem_of_mem_trimSpaces h.1
        have hws := cleanChars_ws_of_no_alpha halpha c hcm
        rw [h.2] at hws
        exact absurd hws (by simp)
    rw [← hts, htnil]
    rfl
  refine ⟨hwords, ?_, ?_, ?_⟩
  · rw [lineWords]
    simpa using splitWsAux_ne_nil (trimSpaces (cleanChars line.data)) [] false
  · have hft : (tokenized_df [line]).flatten = lineWords line := by
      simp [tokenized_df]
    rw [words_df, hft, List.filter_eq_nil_iff]
    intro a ha
    simp [hwords a ha]
  · intro hsp
    have hclean : ∀ c ∈ cleanChars line.data, c = ' ' := by
      intro c hc
      have hws := cleanChars_ws_of_no_alpha halpha c hc
      rcases List.mem_filter.mp hc with ⟨hmem, _⟩
      rcases List.mem_map.mp hmem with ⟨c₀, hc₀, hce⟩
      have := hsp c₀ hc₀ (by rw [hce]; exact hws)
      rw [← hce]
      exact this
    have htrim : trimSpaces (cleanChars line.data) = [] := by
      rw [trimSpaces]
      have h1 : (cleanChars line.data).dropWhile (fun c => c = ' ') = [] := by
        rw [List.dropWhile_eq_nil_iff]
        intro x hx
        simp [hclean x hx]
      rw [h1]
      rfl
    rw [lineWords, htrim]
    rfl

/-- Witness for `punctuation_line_tokens` at the all-punctuation line
`"!!!"`. -/
theorem punctuation_line_tokens_witness :
    words_df ["!!!"] = [] ∧ lineWords "!!!" = [""] :=
  ⟨(punctuation_line_tokens "!!!" (by decide)).2.2.1,
   (punctuation_line_tokens "!!!" (by decide)).2.2.2 (by decide)⟩

/-- Counterexample to claim C6 as stated: the all-punctuation line `"!!!"`
contributes to the line-token view one row holding the one-element sequence
`[""]` — a sequence containing one empty-string token, not an empty
sequence. -/
theorem punctuation_line_counterexample :
    tokenized_df ["!!!"] = [[""]] ∧ ([""] : List String) ≠ [] := by
  decide

/-- Claim C7 (amended): every pair key emitted by the pair statistic has the
form `a|b` with `a ≤ b` lexicographically, where `a` and `b` are drawn from
the distinct tokens of a single line's word sequence and every character of
`a` and of `b` is a lowercase letter; the components may however be the
empty string — a line with no alphabetic characters emits the pair key
`"|"`. -/
theorem pair_key_invariant (corpus : List String) :
    ∀ p ∈ pySparkPair corpus, ∃ line ∈ corpus, ∃ a b : String,
      a ∈ lineWords line ∧ b ∈ lineWords line ∧ strLeP a b ∧
      p = a ++ "|" ++ b ∧
      (∀ c ∈ a.data, 'a' ≤ c ∧ c ≤ 'z') ∧
      (∀ c ∈ b.data, 'a' ≤ c ∧ c ≤ 'z') := by
  intro p hp
  rw [pySparkPair, List.mem_flatten] at hp
  rcases hp with ⟨l', hl', hpl⟩
  rcases List.mem_map.mp hl' with ⟨wsline, hws, hgen⟩
  rcases List.mem_map.mp hws with ⟨line, hline, hlw⟩
  have hp2 : p ∈ generate_pairs wsline := by rw [hgen]; exact hpl
  rw [generate_pairs] at hp2
  rcases List.mem_map.mp hp2 with ⟨q, hq, henc⟩
  obtain ⟨a, b⟩ := q
  rw [linePairs] at hq
  have hq' := (mem_cwr2_iff _ (sortedUnique_sorted wsline)).mp hq
  have ha : a ∈ lineWords line := by
    rw [hlw]; exact mem_sortedUnique.mp hq'.1
  have hb : b ∈ lineWords line := by
    rw [hlw]; exact mem_sortedUnique.mp hq'.2.1
  refine ⟨line, hline, a, b, ha, hb, hq'.2.2, ?_, ?_, ?_⟩
  · rw [← henc]; rfl
  · exact lineWords_chars line a ha
  · exact lineWords_chars line b hb

/-- Witness for `pair_key_invariant` at the singleton corpus
`["cat dog"]` and the emitted key `"cat|dog"`. -/
theorem pair_key_invariant_witness :
    ∃ line ∈ ["cat dog"], ∃ a b : String,
      a ∈ lineWords line ∧ b ∈ lineWords line ∧ strLeP a b ∧
      ("cat|dog" : String) = a ++ "|" ++ b ∧
      (∀ c ∈ a.data, 'a' ≤ c ∧ c ≤ 'z') ∧
      (∀ c ∈ b.data, 'a' ≤ c ∧ c ≤ 'z') :=
  pair_key_invariant ["cat dog"] "cat|dog" (by decide)

/-- Counterexample to claim C7 as stated: the corpus whose single line is
`"!!!"` makes the pair statistic emit exactly one pair key, `"|"`, which is
built from two empty strings. -/
theorem pair_key_empty_counterexample :
    pySparkPair ["!!!"] = ["" ++ "|" ++ ""] := by
  decide

/-- Claim C8: an equivalence mismatch between Path A and Path B is
non-fatal for every statistic: the run reports the mismatch with both result
sets, and the remaining checks and the export stage still execute — the
script's tail produces all three reports and all seven output files
whatever the engine-returned results are. -/
theorem mismatch_nonfatal (apiCount sqlCount : Nat)
    (apiFreq sqlFreq apiPairs sqlPairs : List (String × Nat)) :
    (runChecksAndExport apiCount sqlCount apiFreq sqlFreq
        apiPairs sqlPairs).exportedFiles = exportFileNames ∧
    (runChecksAndExport apiCount sqlCount apiFreq sqlFreq
        apiPairs sqlPairs).reports.length = 3 ∧
    (sqlCount ≠ apiCount →
      Report.mismatchCount "word_count" apiCount sqlCount ∈
        (runChecksAndExport apiCount sqlCount apiFreq sqlFreq
          apiPairs sqlPairs).reports) ∧
    (sqlFreq ≠ apiFreq →
      Report.mismatchTable "word_frequency" apiFreq sqlFreq ∈
        (runChecksAndExport apiCount sqlCount apiFreq sqlFreq
          apiPairs sqlPairs).reports) ∧
    (sqlPairs ≠ apiPairs →
      Report.mismatchTable "word_pairs" apiPairs sqlPairs ∈
        (runChecksAndExport apiCount sqlCount apiFreq sqlFreq
          apiPairs sqlPairs).reports) := by
  refine ⟨rfl, rfl, ?_, ?_, ?_⟩
  · intro h
    simp [runChecksAndExport, checkCount, h]
  · intro h
    simp [runChecksAndExport, checkTable, h]
  · intro h
    simp [runChecksAndExport, checkTable, h]

/-- Witness for `mismatch_nonfatal`: with mismatching word counts the run
still exports all files and reports the mismatch. -/
theorem mismatch_nonfatal_witness :
    (runChecksAndExport 1 2 [] [] [] []).exportedFiles = exportFileNames ∧
    Report.mismatchCount "word_count" 1 2 ∈
      (runChecksAndExport 1 2 [] [] [] []).reports :=
  ⟨(mismatch_nonfatal 1 2 [] [] [] []).1,
   (mismatch_nonfatal 1 2 [] [] [] []).2.2.1 (by decide)⟩
